import Mathlib

/-!
# Verification of the News-Agent selection pipeline

Shallow embedding of the heuristic news-selection pipeline:

* `src/src/feeds/fetcher.py` — time-window filtering and URL deduplication;
* `src/src/agent/news_agent.py` — the `ArticleSummary` / `DailySummary` data
  model, heuristic enrichment (key points, importance, category) and the
  orchestrator `run`;
* `src/src/ranking/ranker.py` — recency/diversity scoring, greedy top-N
  selection and the cap-based `ensure_source_diversity`.

Python floats are modelled as rationals (`ℚ`); the arithmetic involved is
small sums of halves and tenths, exactly representable either way.
Wall-clock time and date parsing (`datetime.now()`, `datetime.strptime`)
are modelled by explicit parameters: `now : ℚ` (a timestamp measured in
hours) and `parseDate : String → Option ℚ` (`none` models an unparsable
published string).  Python text is modelled as `List Char`; `str.lower`
is modelled with `Char.toLower` (ASCII case folding).
-/

namespace News

/-- Python's two-argument `min` on rationals (`a` if `a <= b` else `b`);
written with an `if` so that it evaluates by kernel reduction. -/
def pymin (a b : ℚ) : ℚ := if a ≤ b then a else b

/-- Python's two-argument `max` on rationals (`a` if `a >= b` else `b`);
written with an `if` so that it evaluates by kernel reduction. -/
def pymax (a b : ℚ) : ℚ := if b ≤ a then a else b

/-- Python `str.lower()` on a list of characters (ASCII case folding). -/
def lowerStr (s : List Char) : List Char := s.map Char.toLower

/-- Python `str.strip()`: drop whitespace from both ends. -/
def stripStr (s : List Char) : List Char :=
  ((s.dropWhile Char.isWhitespace).reverse.dropWhile Char.isWhitespace).reverse

/-- Python `summary.replace('...', '.')`: left-to-right, non-overlapping
replacement of each ellipsis by a single period (`_extract_key_points`,
news_agent.py line 62). -/
def collapseEllipses : List Char → List Char
  | '.' :: '.' :: '.' :: rest => '.' :: collapseEllipses rest
  | c :: rest => c :: collapseEllipses rest
  | [] => []

/-- Embedding of `NewsAgent._extract_key_points` (news_agent.py lines 56-65): collapse
ellipses, split on periods, strip each fragment, keep fragments strictly
longer than 20 characters, return the first three. -/
def extractKeyPoints (summary : List Char) : List (List Char) :=
  if summary = [] then []
  else
    let sentences := (collapseEllipses summary).splitOn '.'
    (((sentences.map stripStr).filter (fun s => decide (20 < s.length))).take 3)

/-- The fixed keyword list of `NewsAgent._calculate_importance`
(news_agent.py lines 74-76). -/
def importantKeywords : List (List Char) :=
  [ "ai".data, "artificial intelligence".data, "breakthrough".data, "launch".data,
    "announce".data, "release".data, "new".data, "first".data, "major".data,
    "billion".data, "google".data, "apple".data, "microsoft".data, "openai".data,
    "meta".data, "amazon".data ]

/-- Embedding of `NewsAgent._calculate_importance` (news_agent.py lines 67-83): start at
5.0 and add 0.5 for every keyword of the fixed list that occurs as a
substring of the lowercased title; cap the result at 10.0. -/
def calcImportance (title : List Char) : ℚ :=
  let titleLower := lowerStr title
  let score :=
    importantKeywords.foldl
      (fun s kw => if kw <:+: titleLower then s + 1/2 else s) 5
  pymin 10 score

/-- The fixed ordered category table of `NewsAgent._categorize_article`
(news_agent.py lines 89-97).  Python dictionaries preserve insertion
order, so iteration visits the categories in this order. -/
def categoriesTable : List (String × List (List Char)) :=
  [ ("AI/ML", ["ai".data, "artificial intelligence".data, "machine learning".data,
               "gpt".data, "llm".data, "chatgpt".data, "neural".data]),
    ("Startups", ["startup".data, "funding".data, "venture".data, "seed".data,
                  "series a".data, "series b".data, "valuation".data]),
    ("Gadgets", ["phone".data, "iphone".data, "android".data, "laptop".data,
                 "tablet".data, "wearable".data, "headphone".data]),
    ("Gaming", ["game".data, "gaming".data, "playstation".data, "xbox".data,
                "nintendo".data, "steam".data]),
    ("Space", ["space".data, "nasa".data, "spacex".data, "rocket".data,
               "satellite".data, "mars".data, "moon".data]),
    ("Security", ["security".data, "hack".data, "breach".data, "privacy".data,
                  "cyber".data, "ransomware".data]),
    ("Software", ["app".data, "software".data, "update".data, "feature".data,
                  "version".data]) ]

/-- The nested loop of `_categorize_article` (news_agent.py lines 99-104):
return the first category one of whose keywords occurs in the lowercased
title; fall through to `"Tech"`. -/
def categorizeGo (titleLower : List Char) : List (String × List (List Char)) → String
  | [] => "Tech"
  | (cat, kws) :: rest =>
    if kws.any (fun kw => decide (kw <:+: titleLower)) then cat
    else categorizeGo titleLower rest

/-- Embedding of `NewsAgent._categorize_article` (news_agent.py lines 85-104). -/
def categorizeArticle (title : List Char) : String :=
  categorizeGo (lowerStr title) categoriesTable

/-- The `ArticleSummary` dataclass (news_agent.py lines 12-26).  `published`
is kept as the string the dataclass stores (`str(article.published)`). -/
structure ArticleSummary where
  title : String
  url : String
  source : String
  published : String
  summary : String
  key_points : List String
  importance_score : ℚ
  category : String
deriving DecidableEq, Inhabited

/-- The `RawArticle` dataclass (fetcher.py lines 12-26); `published` is a
timestamp measured in hours. -/
structure RawArticle where
  title : String
  url : String
  source : String
  published : ℚ
  summary : String
  author : String
  tags : List String
deriving DecidableEq, Inhabited

/-- The `DailySummary` dataclass (news_agent.py lines 29-42). -/
structure DailySummary where
  date : String
  articles : List ArticleSummary
  total_fetched : Nat
  total_parsed : Nat
  sources_used : List String
deriving DecidableEq, Inhabited

/-- Embedding of `FeedFetcher.filter_today_articles` (fetcher.py lines 158-164); the
cutoff `now - days*24` hours is supplied directly. -/
def filterTodayArticles (cutoff : ℚ) (articles : List RawArticle) : List RawArticle :=
  articles.filter (fun a => decide (cutoff ≤ a.published))

/-- The loop of `FeedFetcher.deduplicate` (fetcher.py lines 168-175),
with the `seen_urls` set threaded through as a list. -/
def dedupGo (seen : List String) : List RawArticle → List RawArticle
  | [] => []
  | a :: rest =>
    if a.url ∈ seen then dedupGo seen rest
    else a :: dedupGo (a.url :: seen) rest

/-- Embedding of `FeedFetcher.deduplicate` (fetcher.py lines 166-176). -/
def deduplicate (articles : List RawArticle) : List RawArticle :=
  dedupGo [] articles

/-- The three scoring weights of `ArticleRanker.__init__`
(ranker.py lines 12-19). -/
structure RankWeights where
  recency_weight : ℚ
  importance_weight : ℚ
  diversity_weight : ℚ
deriving DecidableEq, Inhabited

/-- The default weights 0.2 / 0.6 / 0.2 (ranker.py lines 13-15). -/
def defaultWeights : RankWeights :=
  { recency_weight := 2/10, importance_weight := 6/10, diversity_weight := 2/10 }

/-- Embedding of `ArticleRanker.calculate_recency_score` (ranker.py lines 21-53),
parameterized by the date parser (`datetime.strptime` over the format
list) and the current time, both in hours; an unparsable published
string is `parseDate published = none` and scores 5. -/
def calcRecencyScore (parseDate : String → Option ℚ) (now : ℚ) (published : String) : ℚ :=
  match parseDate published with
  | none => 5
  | some t =>
    let hoursAgo := now - t
    if hoursAgo ≤ 1 then 10
    else if hoursAgo ≤ 6 then 9
    else if hoursAgo ≤ 12 then 7
    else if hoursAgo ≤ 24 then 5
    else pymax 1 (5 - (hoursAgo - 24) / 24)

/-- Embedding of `ArticleRanker.calculate_diversity_penalty` (ranker.py lines 55-70):
+2 per already-selected article with the same source, +1 per
already-selected article with the same category (both additive). -/
def calcDiversityPenalty (article : ArticleSummary) (selected : List ArticleSummary) : ℚ :=
  selected.foldl
    (fun p sel =>
      let p1 := if article.source = sel.source then p + 2 else p
      if article.category = sel.category then p1 + 1 else p1)
    0

/-- Embedding of `ArticleRanker.calculate_final_score` (ranker.py lines 72-94). -/
def calcFinalScore (w : RankWeights) (parseDate : String → Option ℚ) (now : ℚ)
    (article : ArticleSummary) (selected : List ArticleSummary) : ℚ :=
  let importance := article.importance_score
  let recency := calcRecencyScore parseDate now article.published
  let diversityPenalty := calcDiversityPenalty article selected
  pymax 0 (w.importance_weight * importance + w.recency_weight * recency -
           w.diversity_weight * diversityPenalty)

/-- The argmax scan of `get_top_n` (ranker.py lines 116-123) over the
list of candidate scores: `best_score` starts at `-1`, and only a
strictly greater score replaces the incumbent, so the earliest maximum
wins.  Arguments: remaining scores, best score, best index, index of the
next score. -/
def bestIdxGo : List ℚ → ℚ → Nat → Nat → Nat
  | [], _, bi, _ => bi
  | s :: rest, bs, bi, i =>
    if bs < s then bestIdxGo rest s i (i + 1)
    else bestIdxGo rest bs bi (i + 1)

/-- The index of the remaining article with the highest final score
against `selected`, earliest index on ties (ranker.py lines 116-123). -/
def bestIdx (w : RankWeights) (parseDate : String → Option ℚ) (now : ℚ)
    (selected remaining : List ArticleSummary) : Nat :=
  bestIdxGo (remaining.map (fun a => calcFinalScore w parseDate now a selected)) (-1) 0 0

/-- The while-loop of `get_top_n` (ranker.py lines 114-126).  Each
iteration pops one element of `remaining`, so `fuel := remaining.length`
bounds the number of iterations; the loop conditions are re-checked
inside. -/
def greedyLoop (w : RankWeights) (parseDate : String → Option ℚ) (now : ℚ) (n : Nat) :
    Nat → List ArticleSummary → List ArticleSummary → List ArticleSummary
  | 0, selected, _ => selected
  | fuel + 1, selected, remaining =>
    if selected.length < n ∧ remaining ≠ [] then
      let idx := bestIdx w parseDate now selected remaining
      match remaining[idx]? with
      | some a => greedyLoop w parseDate now n fuel (selected ++ [a]) (remaining.eraseIdx idx)
      | none => selected
    else selected

/-- Embedding of `ArticleRanker.get_top_n` (ranker.py lines 106-128). -/
def getTopN (w : RankWeights) (parseDate : String → Option ℚ) (now : ℚ)
    (summaries : List ArticleSummary) (n : Nat) : List ArticleSummary :=
  if summaries.length ≤ n then summaries
  else greedyLoop w parseDate now n summaries.length [] summaries

/-- The descending-importance relation used by `sorted(..., reverse=True)`
in `ensure_source_diversity` (ranker.py line 139) and by
`summaries.sort(...)` in `run` (news_agent.py line 161). -/
def impGE (a b : ArticleSummary) : Prop :=
  b.importance_score ≤ a.importance_score

instance : DecidableRel impGE :=
  fun a b => inferInstanceAs (Decidable (b.importance_score ≤ a.importance_score))

instance : IsTotal ArticleSummary impGE :=
  ⟨fun a b => le_total b.importance_score a.importance_score⟩

instance : IsTrans ArticleSummary impGE :=
  ⟨fun _ _ _ h1 h2 => le_trans h2 h1⟩

/-- Python's stable sort by importance score descending, modelled as a
stable insertion sort. -/
def sortByImportanceDesc (summaries : List ArticleSummary) : List ArticleSummary :=
  List.insertionSort impGE summaries

/-- The admission loop shared by `ensure_source_diversity`
(ranker.py lines 141-148) and the inline selection loop of `run`
(news_agent.py lines 167-174): walk the sorted candidates, stop once `n`
articles are selected, and admit an article only while its source has
been used fewer than `maxPerSource` times.  The `source_counts`
dictionary (defaultdict / `dict.get(..., 0)`) is modelled as a total
function that is zero by default. -/
def capSelectGo (maxPerSource n : Nat) :
    (String → Nat) → List ArticleSummary → List ArticleSummary → List ArticleSummary
  | _, selected, [] => selected
  | counts, selected, a :: rest =>
    if n ≤ selected.length then selected
    else if counts a.source < maxPerSource then
      capSelectGo maxPerSource n
        (fun s => if s = a.source then counts s + 1 else counts s)
        (selected ++ [a]) rest
    else capSelectGo maxPerSource n counts selected rest

/-- Embedding of `ArticleRanker.ensure_source_diversity` (ranker.py lines 130-150). -/
def ensureSourceDiversity (summaries : List ArticleSummary) (n maxPerSource : Nat) :
    List ArticleSummary :=
  capSelectGo maxPerSource n (fun _ => 0) [] (sortByImportanceDesc summaries)

/-- The enrichment of one raw article inside `run`
(news_agent.py lines 141-150); `showDate` models `str()` applied to the
stored publication time. -/
def enrichArticle (showDate : ℚ → String) (article : RawArticle) : ArticleSummary :=
  { title := article.title
    url := article.url
    source := article.source
    published := showDate article.published
    summary := if article.summary = "" then "Click to read the full article." else article.summary
    key_points := (extractKeyPoints article.summary.data).map (fun s => String.mk s)
    importance_score := calcImportance article.title.data
    category := categorizeArticle article.title.data }

/-- Embedding of `NewsAgent.run` (news_agent.py lines 106-185) as a pure function of
the fetched raw articles: filter to the recency window, deduplicate,
short-circuit on an empty pool, enrich the first 100 articles, sort by
importance descending, then admit at most `topN` articles with at most 2
per source.  `list(set(...))` for `sources_used` is modelled as the
duplicate-free list of sources in first-occurrence order. -/
def runPipeline (today : String) (showDate : ℚ → String) (cutoff : ℚ) (topN : Nat)
    (rawArticles : List RawArticle) : DailySummary :=
  let todayArticles := deduplicate (filterTodayArticles cutoff rawArticles)
  if todayArticles = [] then
    { date := today, articles := [], total_fetched := rawArticles.length,
      total_parsed := 0, sources_used := [] }
  else
    let summaries := (todayArticles.take 100).map (enrichArticle showDate)
    let sorted := sortByImportanceDesc summaries
    let topArticles := capSelectGo 2 topN (fun _ => 0) [] sorted
    { date := today, articles := topArticles, total_fetched := rawArticles.length,
      total_parsed := summaries.length,
      sources_used := (topArticles.map (fun a => a.source)).eraseDups }

/-- Maximum of a list of rationals (0 on the empty list; only used on
non-empty lists). -/
def listMax : List ℚ → ℚ
  | [] => 0
  | s :: rest => rest.foldl pymax s

/-- Reference greedy selection, written from the claim C3 wording:
repeatedly recompute every remaining candidate's final score against the
current selected list, move the single highest-scoring candidate
(earliest index on ties) into the selection, and stop after `n`
selections (the fuel) or when the pool is empty. -/
def refGreedy (w : RankWeights) (parseDate : String → Option ℚ) (now : ℚ) :
    Nat → List ArticleSummary → List ArticleSummary → List ArticleSummary
  | 0, selected, _ => selected
  | _ + 1, selected, [] => selected
  | k + 1, selected, remaining =>
    let scores := remaining.map (fun a => calcFinalScore w parseDate now a selected)
    let idx := scores.indexOf (listMax scores)
    match remaining[idx]? with
    | some a => refGreedy w parseDate now k (selected ++ [a]) (remaining.eraseIdx idx)
    | none => selected

/-- The number of positions at which `kw` occurs in `s`. -/
def countOccurrences (kw s : List Char) : Nat :=
  ((List.range (s.length + 1)).filter (fun i => decide (kw.isPrefixOf (s.drop i)))).length

/-- Importance scoring as worded by claim C4: 5.0 plus 0.5 for **each
occurrence** of any keyword of the fixed set in the lowercased title,
capped at 10.0. -/
def claimImportanceOcc (title : List Char) : ℚ :=
  let titleLower := lowerStr title
  pymin 10 (5 +
    (((importantKeywords.map (fun kw => countOccurrences kw titleLower)).sum : ℕ) : ℚ) / 2)

/-- Importance scoring as amended: 5.0 plus 0.5 for each keyword of the
fixed set that occurs (at least once) in the lowercased title, capped at
10.0. -/
def amendedImportance (title : List Char) : ℚ :=
  pymin 10 (5 + (importantKeywords.countP (fun kw => decide (kw <:+: lowerStr title)) : ℚ) / 2)

/-- Categorization as worded by claim C8: the first category of the fixed
ordered table one of whose keywords occurs (case-insensitively) in the
title wins; `"Tech"` when no category matches. -/
def claimCategorize (title : List Char) : String :=
  match categoriesTable.find? (fun p => p.2.any (fun kw => decide (kw <:+: lowerStr title))) with
  | some p => p.1
  | none => "Tech"

/-- Key-point extraction as worded by claim C9: collapse ellipses, split
on periods, strip, **drop fragments under 20 characters** (i.e. keep
those of length ≥ 20), keep the first three. -/
def claimExtractKeyPoints (summary : List Char) : List (List Char) :=
  if summary = [] then []
  else
    ((((collapseEllipses summary).splitOn '.').map stripStr).filter
      (fun s => decide (20 ≤ s.length))).take 3

/-- Key-point extraction as amended: drop fragments of 20 characters or
fewer (keep only those strictly longer than 20). -/
def amendedExtractKeyPoints (summary : List Char) : List (List Char) :=
  if summary = [] then []
  else
    ((((collapseEllipses summary).splitOn '.').map stripStr).filter
      (fun s => decide (20 < s.length))).take 3

/-! ## Basic lemmas -/

theorem pymin_eq (a b : ℚ) : pymin a b = min a b :=
  (min_def a b).symm

theorem pymax_eq (a b : ℚ) : pymax a b = max a b := by
  unfold pymax
  rcases le_total a b with h | h
  · rcases h.lt_or_eq with h' | h'
    · rw [if_neg (not_le.mpr h'), max_eq_right h]
    · simp [h']
  · rw [if_pos h, max_eq_left h]

/-- Every branch of the recency score is at least 1. -/
theorem one_le_calcRecencyScore (parseDate : String → Option ℚ) (now : ℚ) (p : String) :
    1 ≤ calcRecencyScore parseDate now p := by
  unfold calcRecencyScore
  cases parseDate p with
  | none => norm_num
  | some t =>
    simp only
    split_ifs
    · norm_num
    · norm_num
    · norm_num
    · norm_num
    · rw [pymax_eq]
      exact le_max_left 1 _

/-- The final score is clamped to a minimum of 0. -/
theorem calcFinalScore_nonneg (w : RankWeights) (parseDate : String → Option ℚ) (now : ℚ)
    (a : ArticleSummary) (selected : List ArticleSummary) :
    0 ≤ calcFinalScore w parseDate now a selected := by
  unfold calcFinalScore
  rw [pymax_eq]
  exact le_max_left 0 _

/-- A single same-source prior selection contributes a penalty of at
least 2. -/
theorem two_le_penalty_single (A B : ArticleSummary) (hsrc : B.source = A.source) :
    2 ≤ calcDiversityPenalty B [A] := by
  unfold calcDiversityPenalty
  simp only [List.foldl_cons, List.foldl_nil]
  rw [if_pos hsrc]
  split_ifs <;> norm_num

/-- C2: selecting B after a same-source article A strictly lowers B's
final score (default weights) versus selecting B first. -/
theorem sameSource_strictly_lowers_score (parseDate : String → Option ℚ) (now : ℚ)
    (A B : ArticleSummary) (hsrc : A.source = B.source)
    (h0 : 0 ≤ B.importance_score) (h10 : B.importance_score ≤ 10) :
    calcFinalScore defaultWeights parseDate now B [A] <
      calcFinalScore defaultWeights parseDate now B [] := by
  have hrec := one_le_calcRecencyScore parseDate now B.published
  have hpen := two_le_penalty_single A B hsrc.symm
  have hpen0 : calcDiversityPenalty B [] = 0 := rfl
  unfold calcFinalScore
  rw [pymax_eq, pymax_eq, hpen0]
  simp only [defaultWeights]
  have himp : 0 ≤ 6/10 * B.importance_score := by
    apply mul_nonneg _ h0
    norm_num
  have hrw : (2:ℚ)/10 * 1 ≤ 2/10 * calcRecencyScore parseDate now B.published := by
    apply mul_le_mul_of_nonneg_left hrec
    norm_num
  have hbase : 0 < 6/10 * B.importance_score + 2/10 * calcRecencyScore parseDate now B.published := by
    nlinarith
  have hps : (2:ℚ)/10 * 2 ≤ 2/10 * calcDiversityPenalty B [A] := by
    apply mul_le_mul_of_nonneg_left hpen
    norm_num
  rw [mul_zero, sub_zero, max_eq_right hbase.le]
  apply max_lt hbase
  nlinarith

/-- C2 witness: a concrete same-source pair. -/
theorem sameSource_strictly_lowers_score_witness :
    calcFinalScore defaultWeights (fun _ => none) 0
        ⟨"b", "ub", "s", "d", "x", [], 5, "Tech"⟩
        [⟨"a", "ua", "s", "d", "x", [], 7, "Tech"⟩] <
      calcFinalScore defaultWeights (fun _ => none) 0
        ⟨"b", "ub", "s", "d", "x", [], 5, "Tech"⟩ [] :=
  sameSource_strictly_lowers_score (fun _ => none) 0
    ⟨"a", "ua", "s", "d", "x", [], 7, "Tech"⟩
    ⟨"b", "ub", "s", "d", "x", [], 5, "Tech"⟩ rfl (by norm_num) (by norm_num)

/-- C6: the recency score is bucketed by elapsed hours exactly as the
spec describes, an unparsable date scores 5, and 30 elapsed hours score
4.75. -/
theorem calcRecencyScore_spec (parseDate : String → Option ℚ) (now : ℚ) (p : String) :
    (parseDate p = none → calcRecencyScore parseDate now p = 5) ∧
    (∀ t, parseDate p = some t →
      (now - t ≤ 1 → calcRecencyScore parseDate now p = 10) ∧
      (1 < now - t → now - t ≤ 6 → calcRecencyScore parseDate now p = 9) ∧
      (6 < now - t → now - t ≤ 12 → calcRecencyScore parseDate now p = 7) ∧
      (12 < now - t → now - t ≤ 24 → calcRecencyScore parseDate now p = 5) ∧
      (24 < now - t → calcRecencyScore parseDate now p =
        max 1 (5 - (now - t - 24) / 24)) ∧
      (now - t = 30 → calcRecencyScore parseDate now p = 4.75)) := by
  constructor
  · intro h
    unfold calcRecencyScore
    rw [h]
  · intro t h
    unfold calcRecencyScore
    rw [h]
    simp only
    refine ⟨fun h1 => if_pos h1, fun h1 h6 => ?_, fun h6 h12 => ?_,
      fun h12 h24 => ?_, fun h24 => ?_, fun h30 => ?_⟩
    · rw [if_neg (not_le.mpr h1), if_pos h6]
    · rw [if_neg (by linarith), if_neg (not_le.mpr h6), if_pos h12]
    · rw [if_neg (by linarith), if_neg (by linarith), if_neg (not_le.mpr h12), if_pos h24]
    · rw [if_neg (by linarith), if_neg (by linarith), if_neg (by linarith),
        if_neg (not_le.mpr h24), pymax_eq]
    · rw [h30]
      norm_num [pymax]

/-- C6 witness: an article published 30 hours before `now = 30` scores
4.75; an unparsable date scores 5. -/
theorem calcRecencyScore_spec_witness :
    calcRecencyScore (fun _ => some 0) 30 "2025-01-01 00:00:00" = 4.75 :=
  ((calcRecencyScore_spec (fun _ => some 0) 30 "2025-01-01 00:00:00").2 0
    rfl).2.2.2.2.2 (by norm_num)

/-- C10: when the pool is no larger than `n`, `get_top_n` returns its
input unchanged, bypassing the greedy re-scoring. -/
theorem getTopN_short_input (w : RankWeights) (parseDate : String → Option ℚ) (now : ℚ)
    (summaries : List ArticleSummary) (n : Nat) (h : summaries.length ≤ n) :
    getTopN w parseDate now summaries n = summaries := by
  unfold getTopN
  exact if_pos h

/-- C10 witness: a two-element pool with `n = 5`. -/
theorem getTopN_short_input_witness :
    getTopN defaultWeights (fun _ => none) 0
      [⟨"a", "ua", "s1", "d", "x", [], 9, "Tech"⟩,
       ⟨"b", "ub", "s2", "d", "x", [], 5, "Tech"⟩] 5 =
      [⟨"a", "ua", "s1", "d", "x", [], 9, "Tech"⟩,
       ⟨"b", "ub", "s2", "d", "x", [], 5, "Tech"⟩] :=
  getTopN_short_input defaultWeights (fun _ => none) 0 _ 5 (by decide)

/-! ## Deduplication lemmas -/

theorem dedupGo_sublist : ∀ (seen : List String) (l : List RawArticle),
    (dedupGo seen l).Sublist l
  | _, [] => List.Sublist.refl []
  | seen, a :: rest => by
    unfold dedupGo
    split_ifs
    · exact (dedupGo_sublist seen rest).trans (List.sublist_cons_self a rest)
    · exact (dedupGo_sublist (a.url :: seen) rest).cons₂ a

/-- Every article kept by `dedupGo` has an unseen URL and is the first
article of the input with its URL. -/
theorem dedupGo_mem_spec : ∀ (seen : List String) (l : List RawArticle)
    (b : RawArticle), b ∈ dedupGo seen l →
    b.url ∉ seen ∧ l.find? (fun x => x.url == b.url) = some b := by
  intro seen l
  induction l generalizing seen with
  | nil => intro b hb; simp [dedupGo] at hb
  | cons a rest ih =>
    intro b hb
    unfold dedupGo at hb
    split_ifs at hb with hseen
    · obtain ⟨hnot, hfind⟩ := ih seen b hb
      have hne : (a.url == b.url) = false := by
        simp only [beq_eq_false_iff_ne, ne_eq]
        intro he
        exact hnot (he ▸ hseen)
      refine ⟨hnot, ?_⟩
      rw [List.find?_cons_of_neg _ (by simp [hne]), hfind]
    · rw [List.mem_cons] at hb
      rcases hb with hb | hb
      · subst hb
        exact ⟨hseen, List.find?_cons_of_pos _ (by simp)⟩
      · obtain ⟨hnot, hfind⟩ := ih (a.url :: seen) b hb
        have hne : a.url ≠ b.url := fun he => hnot (by simp [he])
        refine ⟨fun hmem => hnot (by simp [hmem]), ?_⟩
        rw [List.find?_cons_of_neg _ (by simp [hne]), hfind]

theorem dedupGo_nodup : ∀ (seen : List String) (l : List RawArticle),
    ((dedupGo seen l).map (fun a => a.url)).Nodup := by
  intro seen l
  induction l generalizing seen with
  | nil => simp [dedupGo]
  | cons a rest ih =>
    unfold dedupGo
    split_ifs with hseen
    · exact ih seen
    · simp only [List.map_cons, List.nodup_cons]
      refine ⟨?_, ih (a.url :: seen)⟩
      intro hmem
      obtain ⟨b, hb, hurl⟩ := List.mem_map.mp hmem
      exact (dedupGo_mem_spec (a.url :: seen) rest b hb).1 (by simp [hurl])

theorem dedupGo_covers : ∀ (seen : List String) (l : List RawArticle)
    (a : RawArticle), a ∈ l →
    a.url ∈ seen ∨ ∃ b ∈ dedupGo seen l, b.url = a.url := by
  intro seen l
  induction l generalizing seen with
  | nil => intro a ha; simp at ha
  | cons c rest ih =>
    intro a ha
    unfold dedupGo
    rw [List.mem_cons] at ha
    split_ifs with hseen
    · rcases ha with ha | ha
      · subst ha; exact Or.inl hseen
      · exact ih seen a ha
    · rcases ha with ha | ha
      · subst ha
        exact Or.inr ⟨a, List.mem_cons_self _ _, rfl⟩
      · rcases ih (c.url :: seen) a ha with hmem | ⟨b, hb, hurl⟩
        · rcases List.mem_cons.mp hmem with he | hmem'
          · exact Or.inr ⟨c, List.mem_cons_self _ _, he.symm⟩
          · exact Or.inl hmem'
        · exact Or.inr ⟨b, List.mem_cons_of_mem _ hb, hurl⟩

theorem dedupGo_of_nodup : ∀ (seen : List String) (l : List RawArticle),
    (l.map (fun a => a.url)).Nodup → (∀ a ∈ l, a.url ∉ seen) →
    dedupGo seen l = l := by
  intro seen l
  induction l generalizing seen with
  | nil => intro _ _; rfl
  | cons a rest ih =>
    intro hnodup hout
    unfold dedupGo
    rw [if_neg (hout a (List.mem_cons_self _ _))]
    simp only [List.map_cons, List.nodup_cons] at hnodup
    congr 1
    apply ih (a.url :: seen) hnodup.2
    intro x hx
    simp only [List.mem_cons, not_or]
    refine ⟨?_, hout x (List.mem_cons_of_mem _ hx)⟩
    intro he
    exact hnodup.1 (List.mem_map.mpr ⟨x, hx, he⟩)

/-- C5: `deduplicate` returns a subsequence with pairwise-distinct URLs,
covering every URL of the input, keeping exactly the first-seen article
per URL; an input without repeated URLs is returned unchanged. -/
theorem deduplicate_spec (l : List RawArticle) :
    (deduplicate l).Sublist l ∧
    ((deduplicate l).map (fun a => a.url)).Nodup ∧
    (∀ a ∈ l, ∃ b ∈ deduplicate l, b.url = a.url) ∧
    (∀ b ∈ deduplicate l, l.find? (fun x => x.url == b.url) = some b) ∧
    ((l.map (fun a => a.url)).Nodup → deduplicate l = l) := by
  refine ⟨dedupGo_sublist [] l, dedupGo_nodup [] l, ?_, ?_, ?_⟩
  · intro a ha
    rcases dedupGo_covers [] l a ha with hmem | h
    · simp at hmem
    · exact h
  · intro b hb
    exact (dedupGo_mem_spec [] l b hb).2
  · intro hnodup
    exact dedupGo_of_nodup [] l hnodup (by simp)

/-- C5 witness: a concrete three-article input with one repeated URL and
a concrete duplicate-free input. -/
theorem deduplicate_spec_witness :
    deduplicate [⟨"t1", "u1", "s", 0, "", "", []⟩, ⟨"t2", "u2", "s", 0, "", "", []⟩] =
      [⟨"t1", "u1", "s", 0, "", "", []⟩, ⟨"t2", "u2", "s", 0, "", "", []⟩] :=
  (deduplicate_spec _).2.2.2.2 (by decide)

/-! ## Importance, category and key-point lemmas -/

/-- The keyword fold of `_calculate_importance` adds one half per
matching keyword. -/
theorem foldl_add_half (p : List Char → Prop) [DecidablePred p] :
    ∀ (ks : List (List Char)) (s : ℚ),
    ks.foldl (fun s kw => if p kw then s + 1/2 else s) s =
      s + (ks.countP (fun kw => decide (p kw)) : ℚ) / 2 := by
  intro ks
  induction ks with
  | nil => intro s; simp
  | cons k rest ih =>
    intro s
    simp only [List.foldl_cons]
    by_cases h : p k
    · rw [if_pos h, ih, List.countP_cons_of_pos _ _ (by simpa using h)]
      push_cast
      ring
    · rw [if_neg h, ih, List.countP_cons_of_neg _ _ (by simpa using h)]

/-- C4 counterexample: on the title "new new new" the keyword `new`
occurs three times but the code adds 0.5 only once, so per-occurrence
scoring (6.5) disagrees with the code's score (5.5). -/
theorem calcImportance_ne_claimOcc :
    claimImportanceOcc "new new new".data ≠ calcImportance "new new new".data := by
  have h1 : calcImportance "new new new".data = 5.5 := by
    simp only [calcImportance]
    rw [foldl_add_half (fun kw => kw <:+: lowerStr "new new new".data)]
    rw [show importantKeywords.countP
        (fun kw => decide (kw <:+: lowerStr "new new new".data)) = 1 from by decide]
    norm_num [pymin]
  have h2 : claimImportanceOcc "new new new".data = 6.5 := by
    simp only [claimImportanceOcc]
    rw [show (importantKeywords.map
        (fun kw => countOccurrences kw (lowerStr "new new new".data))).sum = 3 from by decide]
    norm_num [pymin]
  rw [h1, h2]
  norm_num

/-- C4 (amended): the importance score is 5.0 plus 0.5 per keyword of the
fixed set occurring in the title (counted once per keyword), capped at
10.0, and always lies in [0, 10]. -/
theorem calcImportance_spec (title : List Char) :
    calcImportance title = amendedImportance title ∧
    0 ≤ calcImportance title ∧ calcImportance title ≤ 10 := by
  have he : calcImportance title = amendedImportance title := by
    simp only [calcImportance, amendedImportance]
    rw [foldl_add_half (fun kw => kw <:+: lowerStr title)]
  refine ⟨he, ?_, ?_⟩
  · rw [he]
    unfold amendedImportance
    rw [pymin_eq, le_min_iff]
    constructor
    · norm_num
    · positivity
  · rw [he]
    unfold amendedImportance
    rw [pymin_eq]
    exact min_le_left 10 _

/-- The helper `categorizeGo` returns the first table entry whose keyword set
matches, defaulting to "Tech". -/
theorem categorizeGo_eq_find (tl : List Char) :
    ∀ table : List (String × List (List Char)),
    categorizeGo tl table =
      ((table.find? (fun p => p.2.any (fun kw => decide (kw <:+: tl)))).map Prod.fst).getD "Tech" := by
  intro table
  induction table with
  | nil => rfl
  | cons p rest ih =>
    obtain ⟨cat, kws⟩ := p
    unfold categorizeGo
    by_cases h : kws.any (fun kw => decide (kw <:+: tl))
    · rw [if_pos h]
      simp only [List.find?]
      rw [h]
      rfl
    · have h' : (kws.any (fun kw => decide (kw <:+: tl))) = false := by
        simpa using h
      rw [if_neg h]
      simp only [List.find?]
      rw [h']
      exact ih

/-- C8: categorization is the first-match lookup over the fixed ordered
category table, with default "Tech". -/
theorem categorizeArticle_spec (title : List Char) :
    categorizeArticle title = claimCategorize title := by
  unfold categorizeArticle claimCategorize
  rw [categorizeGo_eq_find]
  cases h : categoriesTable.find?
      (fun p => p.2.any (fun kw => decide (kw <:+: lowerStr title))) with
  | none => rfl
  | some p => rfl

/-- C9 counterexample: a fragment of exactly 20 characters is dropped by
the code (`len > 20`) but kept by the claim's "drop fragments under 20
characters". -/
theorem extractKeyPoints_ne_claim :
    claimExtractKeyPoints "aaaaaaaaaaaaaaaaaaaa.".data ≠
      extractKeyPoints "aaaaaaaaaaaaaaaaaaaa.".data := by
  decide

/-- C9 (amended): key-point extraction collapses ellipses, splits on
periods, strips fragments, drops fragments of 20 characters or fewer,
and keeps the first 3; the result has length at most 3 and an empty
summary yields no key points. -/
theorem extractKeyPoints_spec (s : List Char) :
    extractKeyPoints s = amendedExtractKeyPoints s ∧
    (extractKeyPoints s).length ≤ 3 ∧
    (s = [] → extractKeyPoints s = []) := by
  refine ⟨rfl, ?_, fun h => by rw [h]; rfl⟩
  unfold extractKeyPoints
  split_ifs
  · simp
  · simpa using List.length_take_le 3 _

/-- C9 witness: the empty summary yields no key points and a long
two-sentence summary yields two key points of length at most 3. -/
theorem extractKeyPoints_spec_witness :
    extractKeyPoints [] = [] :=
  (extractKeyPoints_spec []).2.2 rfl

/-! ## Orchestrator short-circuit -/

/-- C7: when no articles survive filtering and deduplication, `run`
returns a well-formed empty `DailySummary` with an accurate
`total_fetched` count. -/
theorem runPipeline_empty (today : String) (showDate : ℚ → String) (cutoff : ℚ)
    (topN : Nat) (raw : List RawArticle)
    (h : deduplicate (filterTodayArticles cutoff raw) = []) :
    runPipeline today showDate cutoff topN raw =
      { date := today, articles := [], total_fetched := raw.length,
        total_parsed := 0, sources_used := [] } := by
  simp only [runPipeline]
  rw [if_pos h]

/-- C7 witness: one fetched article, published outside the window. -/
theorem runPipeline_empty_witness :
    runPipeline "today" (fun _ => "") 100 5 [⟨"t", "u", "s", 0, "x", "", []⟩] =
      { date := "today", articles := [], total_fetched := 1,
        total_parsed := 0, sources_used := [] } :=
  runPipeline_empty "today" (fun _ => "") 100 5 [⟨"t", "u", "s", 0, "x", "", []⟩] (by decide)

/-! ## Cap-based selection lemmas -/

theorem capSelectGo_length (m n : Nat) :
    ∀ (l : List ArticleSummary) (counts : String → Nat) (selected : List ArticleSummary),
    selected.length ≤ n → (capSelectGo m n counts selected l).length ≤ n := by
  intro l
  induction l with
  | nil => intro counts selected h; exact h
  | cons a rest ih =>
    intro counts selected h
    unfold capSelectGo
    split_ifs with hbreak hadmit
    · exact h
    · apply ih
      simp only [List.length_append, List.length_cons, List.length_nil]
      omega
    · exact ih counts selected h

theorem capSelectGo_countP (m n : Nat) :
    ∀ (l : List ArticleSummary) (counts : String → Nat) (selected : List ArticleSummary),
    (∀ s : String, selected.countP (fun a => a.source == s) = counts s) →
    (∀ s : String, counts s ≤ m) →
    ∀ s : String, (capSelectGo m n counts selected l).countP (fun a => a.source == s) ≤ m := by
  intro l
  induction l with
  | nil => intro counts selected hinv hle s; rw [capSelectGo, hinv s]; exact hle s
  | cons a rest ih =>
    intro counts selected hinv hle s
    unfold capSelectGo
    split_ifs with hbreak hadmit
    · rw [hinv s]; exact hle s
    · apply ih
      · intro u
        rw [List.countP_append, hinv u]
        by_cases hu : u = a.source
        · subst hu
          simp [List.countP_cons]
        · have : (a.source == u) = false := by
            simp only [beq_eq_false_iff_ne, ne_eq]
            exact fun he => hu he.symm
          simp [List.countP_cons, this, hu]
      · intro u
        by_cases hu : u = a.source
        · subst hu; simp; omega
        · simp [hu]; exact hle u
    · exact ih counts selected hinv hle s

theorem capSelectGo_sublist (m n : Nat) :
    ∀ (l : List ArticleSummary) (counts : String → Nat) (selected : List ArticleSummary),
    (capSelectGo m n counts selected l).Sublist (selected ++ l) := by
  intro l
  induction l with
  | nil => intro counts selected; rw [capSelectGo]; simp
  | cons a rest ih =>
    intro counts selected
    unfold capSelectGo
    split_ifs with hbreak hadmit
    · exact List.sublist_append_left selected (a :: rest)
    · have h := ih (fun s => if s = a.source then counts s + 1 else counts s) (selected ++ [a])
      simpa [List.append_assoc] using h
    · exact (ih counts selected).trans
        (List.Sublist.append_left (List.sublist_cons_self a rest) selected)

/-- The stable descending sort is sorted by `impGE`. -/
theorem sortByImportanceDesc_sorted (l : List ArticleSummary) :
    List.Sorted impGE (sortByImportanceDesc l) :=
  List.sorted_insertionSort impGE l

/-- C1: the cap-based selection (both `ensure_source_diversity` with
`max_per_source = 2` and the inline selection loop of `run`) returns at
most `n` articles, never more than 2 per source, admitted in descending
importance order. -/
theorem capSelection_bounds (summaries : List ArticleSummary) (n : Nat) (today : String)
    (showDate : ℚ → String) (cutoff : ℚ) (raw : List RawArticle) :
    ((ensureSourceDiversity summaries n 2).length ≤ n ∧
     (∀ src : String,
       (ensureSourceDiversity summaries n 2).countP (fun a => a.source == src) ≤ 2) ∧
     List.Sorted impGE (ensureSourceDiversity summaries n 2)) ∧
    ((runPipeline today showDate cutoff n raw).articles.length ≤ n ∧
     (∀ src : String,
       (runPipeline today showDate cutoff n raw).articles.countP (fun a => a.source == src) ≤ 2) ∧
     List.Sorted impGE (runPipeline today showDate cutoff n raw).articles) := by
  have main : ∀ pool : List ArticleSummary,
      (capSelectGo 2 n (fun _ => 0) [] (sortByImportanceDesc pool)).length ≤ n ∧
      (∀ src : String,
        (capSelectGo 2 n (fun _ => 0) [] (sortByImportanceDesc pool)).countP
          (fun a => a.source == src) ≤ 2) ∧
      List.Sorted impGE (capSelectGo 2 n (fun _ => 0) [] (sortByImportanceDesc pool)) := by
    intro pool
    refine ⟨?_, ?_, ?_⟩
    · exact capSelectGo_length 2 n _ _ [] (Nat.zero_le n)
    · exact capSelectGo_countP 2 n _ _ [] (by simp) (by simp)
    · exact List.Pairwise.sublist
        (by simpa using capSelectGo_sublist 2 n (sortByImportanceDesc pool) (fun _ => 0) [])
        (sortByImportanceDesc_sorted pool)
  constructor
  · exact main summaries
  · simp only [runPipeline]
    split_ifs with hemp
    · refine ⟨by simp, fun src => by simp, by simp⟩
    · exact main _

/-! ## Greedy-selection lemmas -/

theorem foldl_pymax_max : ∀ (l : List ℚ) (a b : ℚ),
    l.foldl pymax (max a b) = max a (l.foldl pymax b) := by
  intro l
  induction l with
  | nil => intro a b; rfl
  | cons c l ih =>
    intro a b
    simp only [List.foldl_cons, pymax_eq]
    rw [max_assoc, ih]

theorem listMax_cons (s : ℚ) (rest : List ℚ) (h : rest ≠ []) :
    listMax (s :: rest) = max s (listMax rest) := by
  obtain ⟨r, rs, rfl⟩ := List.exists_cons_of_ne_nil h
  show List.foldl pymax s (r :: rs) = max s (listMax (r :: rs))
  simp only [List.foldl_cons, pymax_eq]
  exact foldl_pymax_max rs s r

theorem le_listMax : ∀ (l : List ℚ), ∀ x ∈ l, x ≤ listMax l := by
  intro l
  induction l with
  | nil => intro x hx; simp at hx
  | cons s rest ih =>
    intro x hx
    rcases List.mem_cons.mp hx with rfl | hx
    · rcases eq_or_ne rest [] with rfl | hne
      · exact le_of_eq rfl
      · rw [listMax_cons _ _ hne]; exact le_max_left _ _
    · have hne : rest ≠ [] := List.ne_nil_of_mem hx
      rw [listMax_cons _ _ hne]
      exact (ih x hx).trans (le_max_right _ _)

theorem listMax_mem : ∀ (l : List ℚ), l ≠ [] → listMax l ∈ l := by
  intro l
  induction l with
  | nil => intro h; exact absurd rfl h
  | cons s rest ih =>
    intro _
    rcases eq_or_ne rest [] with rfl | hne
    · exact List.mem_cons_self _ _
    · rw [listMax_cons _ _ hne]
      rcases le_total s (listMax rest) with h | h
      · rw [max_eq_right h]
        exact List.mem_cons_of_mem _ (ih hne)
      · rw [max_eq_left h]
        exact List.mem_cons_self _ _

theorem bestIdxGo_all_le : ∀ (l : List ℚ) (bs : ℚ) (bi i : Nat),
    (∀ x ∈ l, x ≤ bs) → bestIdxGo l bs bi i = bi := by
  intro l
  induction l with
  | nil => intro bs bi i _; rfl
  | cons s rest ih =>
    intro bs bi i h
    unfold bestIdxGo
    rw [if_neg (not_lt.mpr (h s (List.mem_cons_self _ _)))]
    exact ih bs bi (i + 1) (fun x hx => h x (List.mem_cons_of_mem _ hx))

/-- The source's strict-improvement scan returns the index of the first
occurrence of the maximum, provided some element beats the incumbent. -/
theorem bestIdxGo_exists_gt : ∀ (l : List ℚ) (bs : ℚ) (bi i : Nat),
    (∃ x ∈ l, bs < x) → bestIdxGo l bs bi i = i + l.indexOf (listMax l) := by
  intro l
  induction l with
  | nil => intro bs bi i h; simp at h
  | cons s rest ih =>
    intro bs bi i h
    unfold bestIdxGo
    by_cases hbs : bs < s
    · rw [if_pos hbs]
      by_cases hex : ∃ x ∈ rest, s < x
      · obtain ⟨x, hx, hsx⟩ := hex
        have hrest : rest ≠ [] := List.ne_nil_of_mem hx
        have hlt : s < listMax rest := hsx.trans_le (le_listMax rest x hx)
        rw [ih s i (i + 1) ⟨x, hx, hsx⟩, listMax_cons s rest hrest,
          max_eq_right hlt.le, List.indexOf_cons_ne _ hlt.ne]
        omega
      · push_neg at hex
        rw [bestIdxGo_all_le rest s i (i + 1) hex]
        have hmax : listMax (s :: rest) = s := by
          rcases eq_or_ne rest [] with rfl | hne
          · rfl
          · rw [listMax_cons s rest hne]
            exact max_eq_left (hex _ (listMax_mem rest hne))
        rw [hmax, List.indexOf_cons_self]
        omega
    · rw [if_neg hbs]
      obtain ⟨x, hx, hbx⟩ := h
      have hxr : x ∈ rest := by
        rcases List.mem_cons.mp hx with rfl | hr
        · exact absurd hbx hbs
        · exact hr
      have hrest : rest ≠ [] := List.ne_nil_of_mem hxr
      have hs_le : s ≤ bs := not_lt.mp hbs
      have hlt : s < listMax rest :=
        lt_of_le_of_lt hs_le (hbx.trans_le (le_listMax rest x hxr))
      rw [ih bs bi (i + 1) ⟨x, hxr, hbx⟩, listMax_cons s rest hrest,
        max_eq_right hlt.le, List.indexOf_cons_ne _ hlt.ne]
      omega

/-- The fueled while-loop of `get_top_n` agrees with the reference
greedy algorithm whenever the fuel covers the pool. -/
theorem greedyLoop_eq_refGreedy (w : RankWeights) (parseDate : String → Option ℚ) (now : ℚ)
    (n : Nat) : ∀ (fuel : Nat) (selected remaining : List ArticleSummary),
    remaining.length ≤ fuel →
    greedyLoop w parseDate now n fuel selected remaining =
      refGreedy w parseDate now (n - selected.length) selected remaining := by
  intro fuel
  induction fuel with
  | zero =>
    intro selected remaining hlen
    rw [List.length_eq_zero.mp (Nat.le_zero.mp hlen)]
    cases hk : n - selected.length with
    | zero => rfl
    | succ k => rfl
  | succ fuel ih =>
    intro selected remaining hlen
    by_cases hcond : selected.length < n ∧ remaining ≠ []
    · obtain ⟨hsel, hrem⟩ := hcond
      obtain ⟨r, rs, rfl⟩ := List.exists_cons_of_ne_nil hrem
      obtain ⟨k, hk⟩ : ∃ k, n - selected.length = k + 1 :=
        ⟨n - selected.length - 1, by omega⟩
      have hscore : ∀ a ∈ r :: rs,
          (0:ℚ) ≤ calcFinalScore w parseDate now a selected :=
        fun a _ => calcFinalScore_nonneg w parseDate now a selected
      have hexists : ∃ x ∈ (r :: rs).map
          (fun a => calcFinalScore w parseDate now a selected), (-1:ℚ) < x := by
        refine ⟨calcFinalScore w parseDate now r selected,
          List.mem_map_of_mem _ (List.mem_cons_self _ _), ?_⟩
        have := hscore r (List.mem_cons_self _ _)
        linarith
      have hbest : bestIdx w parseDate now selected (r :: rs) =
          ((r :: rs).map (fun a => calcFinalScore w parseDate now a selected)).indexOf
            (listMax ((r :: rs).map (fun a => calcFinalScore w parseDate now a selected))) := by
        unfold bestIdx
        rw [bestIdxGo_exists_gt _ _ _ _ hexists]
        omega
      have hidx : ((r :: rs).map (fun a => calcFinalScore w parseDate now a selected)).indexOf
          (listMax ((r :: rs).map (fun a => calcFinalScore w parseDate now a selected))) <
          (r :: rs).length := by
        have hmem := listMax_mem
          ((r :: rs).map (fun a => calcFinalScore w parseDate now a selected)) (by simp)
        have := List.indexOf_lt_length.mpr hmem
        simpa using this
      simp only [greedyLoop, refGreedy, hk]
      rw [if_pos ⟨hsel, by simp⟩, hbest]
      rw [List.getElem?_eq_getElem hidx]
      simp only
      rw [ih _ _ (by
        rw [List.length_eraseIdx]
        simp only [hidx, if_pos]
        simp only [List.length_cons] at hlen ⊢
        omega)]
      congr 1
      simp only [List.length_append, List.length_cons, List.length_nil]
      omega
    · rw [greedyLoop, if_neg hcond]
      by_cases hrem : remaining = []
      · subst hrem
        cases hk : n - selected.length with
        | zero => rfl
        | succ k => rfl
      · have hsel : n ≤ selected.length := by
          rcases Nat.lt_or_ge selected.length n with h | h
          · exact absurd ⟨h, hrem⟩ hcond
          · exact h
        rw [Nat.sub_eq_zero_of_le hsel]
        rfl

/-- C3 (amended): whenever the pool is strictly larger than `n`,
`get_top_n` equals the reference greedy algorithm that rescores the
remaining pool against the current selection at every step. -/
theorem getTopN_eq_refGreedy (w : RankWeights) (parseDate : String → Option ℚ) (now : ℚ)
    (summaries : List ArticleSummary) (n : Nat) (h : n < summaries.length) :
    getTopN w parseDate now summaries n = refGreedy w parseDate now n [] summaries := by
  unfold getTopN
  rw [if_neg (not_le.mpr h)]
  simpa using greedyLoop_eq_refGreedy w parseDate now n summaries.length [] summaries
    (le_refl _)

/-- C3 witness: a three-article pool with `n = 2`. -/
theorem getTopN_eq_refGreedy_witness :
    getTopN defaultWeights (fun _ => none) 0
      [⟨"a", "ua", "s1", "d", "x", [], 5, "Tech"⟩,
       ⟨"b", "ub", "s2", "d", "x", [], 9, "Tech"⟩,
       ⟨"c", "uc", "s3", "d", "x", [], 7, "Tech"⟩] 2 =
      refGreedy defaultWeights (fun _ => none) 0 2 []
      [⟨"a", "ua", "s1", "d", "x", [], 5, "Tech"⟩,
       ⟨"b", "ub", "s2", "d", "x", [], 9, "Tech"⟩,
       ⟨"c", "uc", "s3", "d", "x", [], 7, "Tech"⟩] :=
  getTopN_eq_refGreedy defaultWeights (fun _ => none) 0 _ 2 (by decide)

/-- C3 counterexample: on a two-article pool with `n = 2`, `get_top_n`
short-circuits and returns the input order, while the reference greedy
algorithm selects the higher-scoring article first. -/
theorem getTopN_ne_refGreedy :
    getTopN defaultWeights (fun _ => none) 0
      [⟨"a", "ua", "s1", "da", "xa", [], 0, "CatA"⟩,
       ⟨"b", "ub", "s2", "db", "xb", [], 10, "CatB"⟩] 2 ≠
    refGreedy defaultWeights (fun _ => none) 0 2 []
      [⟨"a", "ua", "s1", "da", "xa", [], 0, "CatA"⟩,
       ⟨"b", "ub", "s2", "db", "xb", [], 10, "CatB"⟩] := by
  have hA0 : calcFinalScore defaultWeights (fun _ => none) 0
      ⟨"a", "ua", "s1", "da", "xa", [], 0, "CatA"⟩ [] = 1 := by
    norm_num [calcFinalScore, calcRecencyScore, calcDiversityPenalty, defaultWeights, pymax]
  have hB0 : calcFinalScore defaultWeights (fun _ => none) 0
      ⟨"b", "ub", "s2", "db", "xb", [], 10, "CatB"⟩ [] = 7 := by
    norm_num [calcFinalScore, calcRecencyScore, calcDiversityPenalty, defaultWeights, pymax]
  have hA1 : calcFinalScore defaultWeights (fun _ => none) 0
      ⟨"a", "ua", "s1", "da", "xa", [], 0, "CatA"⟩
      [⟨"b", "ub", "s2", "db", "xb", [], 10, "CatB"⟩] = 1 := by
    norm_num [calcFinalScore, calcRecencyScore, calcDiversityPenalty, defaultWeights, pymax,
      show ("s1" : String) ≠ "s2" from by decide,
      show ("CatA" : String) ≠ "CatB" from by decide]
  have e2 : getTopN defaultWeights (fun _ => none) 0
      [⟨"a", "ua", "s1", "da", "xa", [], 0, "CatA"⟩,
       ⟨"b", "ub", "s2", "db", "xb", [], 10, "CatB"⟩] 2 =
      [⟨"a", "ua", "s1", "da", "xa", [], 0, "CatA"⟩,
       ⟨"b", "ub", "s2", "db", "xb", [], 10, "CatB"⟩] := by
    unfold getTopN
    rw [if_pos (by simp)]
  have e1 : refGreedy defaultWeights (fun _ => none) 0 2 []
      [⟨"a", "ua", "s1", "da", "xa", [], 0, "CatA"⟩,
       ⟨"b", "ub", "s2", "db", "xb", [], 10, "CatB"⟩] =
      [⟨"b", "ub", "s2", "db", "xb", [], 10, "CatB"⟩,
       ⟨"a", "ua", "s1", "da", "xa", [], 0, "CatA"⟩] := by
    simp only [refGreedy, List.map_cons, List.map_nil, hA0, hB0]
    rw [show listMax [(1:ℚ), 7] = 7 from by norm_num [listMax, pymax]]
    rw [show List.indexOf (7:ℚ) [1, 7] = 1 from by
      rw [List.indexOf_cons_ne _ (by norm_num : (1:ℚ) ≠ 7), List.indexOf_cons_self]]
    simp only [List.getElem?_cons_succ, List.getElem?_cons_zero, List.eraseIdx,
      List.nil_append, refGreedy, List.map_cons, List.map_nil, hA1]
    rw [show listMax [(1:ℚ)] = 1 from rfl]
    rw [List.indexOf_cons_self]
    simp only [List.getElem?_cons_zero, List.eraseIdx, refGreedy]
    rfl
  rw [e2, e1]
  decide

end News
